import Mathlib

/-!
Verification of the core logic of the `acm-gitops` repository
(`.github/acm/acm.py`): promotion-graph navigation (`Get.first_env`,
`Get.next_env`, `Get.prev_env`), priority-grouped zone extraction
(`Get.zones`), configuration resolution (`Generate._get_params`,
`Generate._get_values`) and the Jinja2 `merge` filter
(`Generate._jinja2_filter_merge`).

The Python data (parsed YAML) is embedded as the inductive type `Yaml`;
Python `dict`s become association lists in insertion order, matching
CPython's ordered-dict semantics: item assignment `d[k] = v` replaces the
value in place when the key exists and appends a new entry otherwise,
`dict.update` folds item assignment over the second dict, and iteration /
`d.values()` follows insertion order.
-/

set_option autoImplicit false
set_option linter.unusedSectionVars false

namespace Acm

/-- A parsed YAML value as produced by `yaml.safe_load` (floats are not
modelled; no claim involves them).  `dict` keeps entries in insertion
order, like a Python `dict`. -/
inductive Yaml where
  | null : Yaml
  | bool : Bool → Yaml
  | int : Int → Yaml
  | str : String → Yaml
  | list : List Yaml → Yaml
  | dict : List (String × Yaml) → Yaml

/-- Entries of a Python `dict` with string keys (insertion order). -/
abbrev Entries := List (String × Yaml)

section DictOps

variable {κ : Type} {α : Type} [BEq κ]

/-- Python `m[k]` read access (first entry with the key; a well-formed
dict has at most one). -/
def dictGet : List (κ × α) → κ → Option α
  | [], _ => none
  | p :: rest, k => if p.1 == k then some p.2 else dictGet rest k

/-- Python `k in m`. -/
def dictContains (m : List (κ × α)) (k : κ) : Bool :=
  m.any (fun p => p.1 == k)

/-- Python item assignment `m[k] = v`: replace the value in place when the
key is present, append a new entry otherwise. -/
def dictSet (m : List (κ × α)) (k : κ) (v : α) : List (κ × α) :=
  if dictContains m k then m.map (fun p => if p.1 == k then (p.1, v) else p)
  else m ++ [(k, v)]

/-- Python `m1.update(m2)`: item assignment folded over `m2`'s entries. -/
def dictUpdate (m1 m2 : List (κ × α)) : List (κ × α) :=
  m2.foldl (fun acc p => dictSet acc p.1 p.2) m1

/-- The keys of a Python dict are pairwise distinct. -/
def nodupKeys : List (κ × α) → Bool
  | [] => true
  | p :: rest => !dictContains rest p.1 && nodupKeys rest

end DictOps

section DictLemmas

variable {κ : Type} {α : Type} [BEq κ] [LawfulBEq κ]

theorem dictGet_eq_none_of_not_contains {m : List (κ × α)} {k : κ}
    (h : dictContains m k = false) : dictGet m k = none := by
  induction m with
  | nil => rfl
  | cons p rest ih =>
    simp only [dictContains, List.any_cons, Bool.or_eq_false_iff] at h
    simp only [dictGet, h.1, if_false]
    exact ih h.2

theorem dictGet_append_right {m m' : List (κ × α)} {k : κ}
    (h : dictContains m k = false) : dictGet (m ++ m') k = dictGet m' k := by
  induction m with
  | nil => rfl
  | cons p rest ih =>
    simp only [dictContains, List.any_cons, Bool.or_eq_false_iff] at h
    simp only [List.cons_append, dictGet, h.1, if_false]
    exact ih h.2

theorem dictGet_append (m m' : List (κ × α)) (k : κ) :
    dictGet (m ++ m') k
      = match dictGet m k with
        | some v => some v
        | none => dictGet m' k := by
  induction m with
  | nil => rfl
  | cons p rest ih =>
    simp only [List.cons_append, dictGet]
    by_cases hp : p.1 == k
    · simp [hp]
    · simp [hp, ih]

theorem dictGet_map_replace_self (m : List (κ × α)) (k : κ) (v : α)
    (h : dictContains m k = true) :
    dictGet (m.map (fun p => if p.1 == k then (p.1, v) else p)) k = some v := by
  induction m with
  | nil => simp [dictContains] at h
  | cons p rest ih =>
    by_cases hp : p.1 == k
    · simp [dictGet, hp]
    · simp only [dictContains, List.any_cons, hp, Bool.false_or] at h
      simp only [List.map_cons, hp, Bool.false_eq_true, if_false, dictGet]
      exact ih h

theorem dictGet_map_replace_ne (m : List (κ × α)) (k k' : κ) (v : α)
    (h : ¬ k' = k) :
    dictGet (m.map (fun p => if p.1 == k then (p.1, v) else p)) k'
      = dictGet m k' := by
  induction m with
  | nil => rfl
  | cons p rest ih =>
    simp only [List.map_cons, dictGet]
    by_cases hp : p.1 == k
    · have hp' : ¬ p.1 == k' := by
        simp only [beq_iff_eq] at hp ⊢
        rw [hp]
        exact fun he => h he.symm
      simp [hp, hp', ih]
    · simp only [hp, Bool.false_eq_true, if_false, dictGet]
      by_cases hk : p.1 == k'
      · simp [hk]
      · simp [hk, ih]

theorem dictGet_dictSet_self (m : List (κ × α)) (k : κ) (v : α) :
    dictGet (dictSet m k v) k = some v := by
  unfold dictSet
  by_cases hc : dictContains m k
  · simp only [hc, if_true]
    exact dictGet_map_replace_self m k v hc
  · simp only [hc, Bool.false_eq_true, if_false]
    rw [dictGet_append, dictGet_eq_none_of_not_contains (by simpa using hc)]
    simp [dictGet]

theorem dictGet_dictSet_ne (m : List (κ × α)) (k k' : κ) (v : α)
    (h : ¬ k' = k) : dictGet (dictSet m k v) k' = dictGet m k' := by
  unfold dictSet
  by_cases hc : dictContains m k
  · simp only [hc, if_true]
    exact dictGet_map_replace_ne m k k' v h
  · simp only [hc, Bool.false_eq_true, if_false]
    rw [dictGet_append]
    have : ¬ k == k' := by
      simp only [beq_iff_eq]
      exact fun he => h he.symm
    simp only [dictGet, this, Bool.false_eq_true, if_false]
    cases dictGet m k' <;> rfl

end DictLemmas

/-! ## Promotion data model

A parsed `promotion.yaml` step.  The Python code reads steps as raw dicts
and tests key presence (`"env" in p`, `"placements" in p`,
`"priority" in info`, `info["name"]`), so the optional fields are modelled
with `Option`. -/

/-- One entry of a step's `placements` list. -/
structure Placement where
  name : Option String
  priority : Option Int

/-- One entry of the `promotion` list. -/
structure Step where
  env : Option String
  placements : Option (List Placement)

/-- Errors raised by the `Get` query methods.  The Python code raises
generic `Exception`s with distinct messages; each constructor stands for
one message (plus `keyError` for Python's `KeyError` on a missing dict
key). -/
inductive NavErr where
  /-- "environment '…' not present / does not exist in the 'promotion.yaml' file" -/
  | environmentNotFound
  /-- "no environment present in the 'promotion.yaml' file" (the spec's EmptyPromotion) -/
  | noEnvironmentPresent
  /-- "missing environment name in the first promotion item" -/
  | missingEnvironmentName
  /-- Python `KeyError` from an unguarded `p["env"]` / `info["name"]` access -/
  | keyError
deriving DecidableEq

/-! ## `Get.first_env` (acm/acm.py lines 385-396) -/

/-- `Get.first_env`: error on an empty promotion list, error when step 0
has no `env` key, otherwise print the first step's name. -/
def firstEnv (promotion : List Step) : Except NavErr String :=
  match promotion with
  | [] => .error .noEnvironmentPresent
  | p :: _ =>
    match p.env with
    | none => .error .missingEnvironmentName
    | some e => .ok e

/-! ## `Get.next_env` (acm/acm.py lines 399-422) -/

/-- The `for p in promotion: … else: …` loop of `Get.next_env`, with the
`found` flag threaded through.  Once `found` is set, the next iteration
prints `p["env"]` (a `KeyError` if the step has no `env` key) and breaks;
falling off the end with `found` set logs "was the last one" (a success
with no output, modelled `.ok none`), and falling off without a match
raises the not-found error. -/
def nextEnvLoop (env : String) : List Step → Bool → Except NavErr (Option String)
  | [], found => if found then .ok none else .error .environmentNotFound
  | p :: rest, found =>
    if found then
      match p.env with
      | some e => .ok (some e)
      | none => .error .keyError
    else
      nextEnvLoop env rest (p.env == some env)

/-- `Get.next_env` on a parsed promotion list. -/
def nextEnv (promotion : List Step) (env : String) : Except NavErr (Option String) :=
  nextEnvLoop env promotion false

/-! ## `Get.prev_env` (acm/acm.py lines 425-448) -/

/-- The `for p in promotion: … else: …` loop of `Get.prev_env`, threading
the `prev` accumulator (initialised to `""`).  On a match the code prints
`prev` when it is non-empty and only warns otherwise (`.ok none`); a
non-matching step runs `prev = p["env"]`, a `KeyError` when the step has
no `env` key; falling off the end raises the not-found error. -/
def prevEnvLoop (env : String) : List Step → String → Except NavErr (Option String)
  | [], _ => .error .environmentNotFound
  | p :: rest, prev =>
    if p.env == some env then
      .ok (if prev == "" then none else some prev)
    else
      match p.env with
      | some e => prevEnvLoop env rest e
      | none => .error .keyError

/-- `Get.prev_env` on a parsed promotion list. -/
def prevEnv (promotion : List Step) (env : String) : Except NavErr (Option String) :=
  prevEnvLoop env promotion ""

/-! ## `Get.zones` (acm/acm.py lines 350-382) -/

/-- The inner `for info in p["placements"]` loop of `Get.zones`: compute
the priority (default `0`), create the bucket if absent
(`data[priority] = []`), then `data[priority].append(info["name"])`
(a `KeyError` when the placement has no `name`), setting `found` once at
least one placement was processed.  `data` is the Python dict keyed by
priority, in insertion order. -/
def zonesInner : List (Int × List String) → List Placement → Bool →
    Except NavErr (List (Int × List String) × Bool)
  | data, [], found => .ok (data, found)
  | data, info :: rest, _ =>
    let priority := info.priority.getD 0
    let d1 := if dictContains data priority then data else data ++ [(priority, [])]
    match info.name with
    | none => .error .keyError
    | some n => zonesInner (dictSet d1 priority ((dictGet d1 priority).getD [] ++ [n])) rest true

/-- The outer `for p in promotion: … else: …` loop of `Get.zones`: a step
is processed when it has an `env` key equal to the query and a
`placements` key; after each iteration `if found: break` stops the scan,
and falling off the end without `found` raises the not-found error.  The
returned buckets are `data`'s `(priority, names)` entries in insertion
order, exactly what `for zones in data.values(): print(",".join(zones))`
writes line by line. -/
def zonesLoop (env : String) : List Step → List (Int × List String) → Bool →
    Except NavErr (List (Int × List String))
  | [], data, found => if found then .ok data else .error .environmentNotFound
  | p :: rest, data, found =>
    match (if p.env == some env && p.placements.isSome
           then zonesInner data (p.placements.getD []) found
           else .ok (data, found)) with
    | .error e => .error e
    | .ok (data', found') => if found' then .ok data' else zonesLoop env rest data' found'

/-- `Get.zones` on a parsed promotion list. -/
def zones (promotion : List Step) (env : String) :
    Except NavErr (List (Int × List String)) :=
  zonesLoop env promotion [] false

/-! ## Reference definitions for the navigator queries

These follow the specification's words (spec §4.3) rather than the Python
control flow; the claims about `nextEnvironment` / `previousEnvironment`
are settled by comparing the embedded code against them. -/

/-- Reference `nextEnvironment` from the spec's words: scan in order; once
a step whose name equals `current` is found, return the name of the
immediately following step, or a "no next" signal when it is the last
step; fail with EnvironmentNotFound when `current` never matches. -/
def nextEnvSpec : List Step → String → Except NavErr (Option String)
  | [], _ => .error .environmentNotFound
  | p :: rest, current =>
    if p.env == some current then
      match rest with
      | [] => .ok none
      | q :: _ => .ok q.env
    else nextEnvSpec rest current

/-- Scan of the reference `previousEnvironment`, tracking the previous
step's name (initially absent). -/
def prevEnvSpecLoop (current : String) : List Step → Option String →
    Except NavErr (Option String)
  | [], _ => .error .environmentNotFound
  | p :: rest, prev =>
    if p.env == some current then .ok prev
    else prevEnvSpecLoop current rest p.env

/-- Reference `previousEnvironment` from the spec's words: scan in order
tracking the previous step's name; on a match return the tracked name or
a "no previous" signal when `current` is the first step; fail with
EnvironmentNotFound when `current` never matches. -/
def prevEnvSpec (promotion : List Step) (current : String) :
    Except NavErr (Option String) :=
  prevEnvSpecLoop current promotion none

/-- A three-step promotion sequence `[A, B, C]` with one placement each
(the spec §8 example shape). -/
def abcPromotion : List Step :=
  [⟨some "A", some [⟨some "z1", none⟩]⟩,
   ⟨some "B", some [⟨some "z2", none⟩]⟩,
   ⟨some "C", some [⟨some "z3", none⟩]⟩]

/-- The `prev` accumulator of `Get.prev_env` (a string, `""` meaning "no
previous step yet") tracks the reference scan's `Option String`
accumulator, provided every step is named and no name is the empty
string. -/
theorem prevEnvLoop_eq_spec (current : String) (l : List Step)
    (hnames : ∀ p ∈ l, p.env ≠ none) (hne : ∀ p ∈ l, p.env ≠ some "")
    (prev : String) :
    prevEnvLoop current l prev
      = prevEnvSpecLoop current l (if prev == "" then none else some prev) := by
  induction l generalizing prev with
  | nil => rfl
  | cons p rest ih =>
    simp only [prevEnvLoop, prevEnvSpecLoop]
    by_cases h : p.env == some current
    · simp [h]
    · simp only [h, Bool.false_eq_true, if_false]
      cases hpe : p.env with
      | none => exact absurd hpe (hnames p (by simp))
      | some e =>
        have he : e ≠ "" := by
          intro he
          exact hne p (by simp) (by rw [hpe, he])
        show prevEnvLoop current rest e = prevEnvSpecLoop current rest (some e)
        rw [ih (fun q hq => hnames q (List.mem_cons_of_mem _ hq))
            (fun q hq => hne q (List.mem_cons_of_mem _ hq)) e]
        simp [he]

/-! ## Claim theorems: navigation and zones -/

/-- C1: on the claim's own example — environment `A` with placements
`[{name:"z1",priority:1},{name:"z2",priority:0},{name:"z3",priority:1}]` —
`Get.zones` groups names into priority buckets and preserves order within
each bucket, but emits the buckets in the order each priority first
appears (Python dict insertion order), `[(1,[z1,z3]),(0,[z2])]`, not in
ascending priority order `[(0,[z2]),(1,[z1,z3])]` as the claim states:
despite the source comment "Extract zones and sort them by priorities" the
code never sorts. -/
theorem zones_emits_buckets_in_first_appearance_order :
    zones [⟨some "A", some [⟨some "z1", some 1⟩, ⟨some "z2", some 0⟩,
        ⟨some "z3", some 1⟩]⟩] "A"
      = .ok [(1, ["z1", "z3"]), (0, ["z2"])]
    ∧ ([(1, ["z1", "z3"]), (0, ["z2"])] : List (Int × List String))
        ≠ [(0, ["z2"]), (1, ["z1", "z3"])] :=
  ⟨rfl, by decide⟩

/-- C2 counterexample: on the empty promotion sequence, `Get.next_env`
fails with the "environment … not present" error (EnvironmentNotFound),
not with the "no environment present" error (EmptyPromotion), so it is
false that every navigator query fails with EmptyPromotion there. -/
theorem nextEnv_empty_promotion_is_not_found_error :
    nextEnv [] "A" = .error .environmentNotFound
    ∧ NavErr.environmentNotFound ≠ NavErr.noEnvironmentPresent :=
  ⟨rfl, by decide⟩

/-- C2 (amended): on the empty promotion sequence every navigator/zone
query fails, but only `Get.first_env` fails with the EmptyPromotion error
("no environment present"); `Get.next_env`, `Get.prev_env` and
`Get.zones` fail with the EnvironmentNotFound error instead. -/
theorem empty_promotion_query_errors (e : String) :
    firstEnv [] = .error .noEnvironmentPresent
    ∧ nextEnv [] e = .error .environmentNotFound
    ∧ prevEnv [] e = .error .environmentNotFound
    ∧ zones [] e = .error .environmentNotFound :=
  ⟨rfl, rfl, rfl, rfl⟩

/-- C5: on every non-empty promotion sequence (whose steps carry names,
per the spec's data model), `Get.next_env` behaves exactly as the spec's
scan `nextEnvSpec`: it returns the name of the step immediately after the
first step matching `current`, a distinct successful "no next" outcome
when that match is the last step, and the EnvironmentNotFound error when
no step matches. -/
theorem nextEnv_matches_spec (promotion : List Step) (current : String)
    (hnames : ∀ p ∈ promotion, p.env ≠ none) :
    nextEnv promotion current = nextEnvSpec promotion current := by
  induction promotion with
  | nil => rfl
  | cons p rest ih =>
    simp only [nextEnv, nextEnvLoop, Bool.false_eq_true, if_false, nextEnvSpec]
    by_cases h : p.env == some current
    · simp only [h, if_true]
      cases rest with
      | nil => rfl
      | cons q r =>
        cases hqe : q.env with
        | none => exact absurd hqe (hnames q (by simp))
        | some e => simp [nextEnvLoop, hqe]
    · simp only [h, Bool.false_eq_true, if_false]
      exact ih fun p hp => hnames p (List.mem_cons_of_mem _ hp)

/-- C5 witness: the theorem applied to the `[A, B, C]` sequence, together
with the concrete outcomes it pins there: `next(A) = B`, `next(C)` is the
successful "no next" signal, and `next(Z)` is EnvironmentNotFound. -/
theorem nextEnv_matches_spec_witness :
    (nextEnv abcPromotion "A" = nextEnvSpec abcPromotion "A")
    ∧ nextEnv abcPromotion "A" = .ok (some "B")
    ∧ nextEnv abcPromotion "C" = .ok none
    ∧ nextEnv abcPromotion "Z" = .error .environmentNotFound :=
  ⟨nextEnv_matches_spec abcPromotion "A" (by simp [abcPromotion]), rfl, rfl, rfl⟩

/-- C6: on every non-empty promotion sequence (whose steps carry non-empty
names, per the spec's data model), `Get.prev_env` behaves exactly as the
spec's tracking scan `prevEnvSpec`: on a match at a non-first step it
returns the tracked previous name, on a match at step 0 it succeeds with
the "no previous" signal, and it fails with EnvironmentNotFound when no
step matches. -/
theorem prevEnv_matches_spec (promotion : List Step) (current : String)
    (hnames : ∀ p ∈ promotion, p.env ≠ none)
    (hne : ∀ p ∈ promotion, p.env ≠ some "") :
    prevEnv promotion current = prevEnvSpec promotion current :=
  prevEnvLoop_eq_spec current promotion hnames hne ""

/-- C6 witness: the theorem applied to the `[A, B, C]` sequence, together
with the claim's concrete facts `previous(A) = none` and
`previous(C) = B`. -/
theorem prevEnv_matches_spec_witness :
    (prevEnv abcPromotion "C" = prevEnvSpec abcPromotion "C")
    ∧ prevEnv abcPromotion "A" = .ok none
    ∧ prevEnv abcPromotion "C" = .ok (some "B") :=
  ⟨prevEnv_matches_spec abcPromotion "C" (by simp [abcPromotion])
      (by simp [abcPromotion]), rfl, rfl⟩

/-- C7: a promotion step whose `env` matches the query but whose
`placements` list is empty leaves `found` unset, so the `for/else` of
`Get.zones` falls through and raises the EnvironmentNotFound error — the
code does not return the "found but empty" success the claim (and spec
§4.4) require; "found but empty" and "never matched" are conflated. -/
theorem zones_empty_placements_raises_not_found :
    zones [⟨some "A", some []⟩] "A" = .error .environmentNotFound :=
  rfl

/-! ## `Generate` configuration resolution

`Generate._get_values` (acm/acm.py lines 203-242) and
`Generate._get_params` (lines 170-200).  File access is abstracted as a
map from file name to a read outcome; each `Generate` invocation starts
with an empty cache (`self._values = None`, `self._params = None`), which
is the state modelled here. -/

/-- Errors raised on the `Generate` side: the "cannot read … file"
exception wrapping a loader failure, and Python `TypeError` from key
tests / item assignment on a non-mapping value. -/
inductive GenErr where
  | cannotReadFile
  | typeError
deriving DecidableEq

/-- Outcome of `os.path.exists` plus `Tools.read_yaml_file` for one file:
the file is absent, present but unreadable/unparsable, or parses to a
YAML value. -/
inductive ReadResult where
  | missing
  | unreadable
  | content : Yaml → ReadResult

mutual

/-- Python `repr` of a parsed YAML value (strings single-quoted; the
quote-escaping of strings that themselves contain `'` is not modelled —
no claim depends on it). -/
def pyReprY : Yaml → String
  | .null => "None"
  | .bool b => cond b "True" "False"
  | .int n => toString n
  | .str s => "'" ++ s ++ "'"
  | .list l => "[" ++ String.intercalate ", " (pyReprList l) ++ "]"
  | .dict m => "\x7b" ++ String.intercalate ", " (pyReprEntries m) ++ "\x7d"
termination_by y => sizeOf y

/-- `repr` of the elements of a Python list. -/
def pyReprList : List Yaml → List String
  | [] => []
  | y :: rest => pyReprY y :: pyReprList rest
termination_by l => sizeOf l

/-- `repr` of the `'key': value` items of a Python dict. -/
def pyReprEntries : List (String × Yaml) → List String
  | [] => []
  | (k, v) :: rest => ("'" ++ k ++ "': " ++ pyReprY v) :: pyReprEntries rest
termination_by m => sizeOf m

end

/-- Python `str` of a parsed YAML value: the string itself for strings,
`repr` otherwise. -/
def pyStr : Yaml → String
  | .str s => s
  | v => pyReprY v

/-- `val_file = "%s-%s.yaml" % (self.env, self.zone)`. -/
def valFileName (env zone : String) : String :=
  env ++ "-" ++ zone ++ ".yaml"

/-- First default of `Generate._get_values` (lines 233-234): when the
`values` entry is missing or not a mapping, run
`self._values["values"] = {}`. -/
def normValuesStep (m : Entries) : Entries :=
  match dictGet m "values" with
  | some (.dict _) => m
  | _ => dictSet m "values" (.dict [])

/-- Second default of `Generate._get_values` (lines 237-240): when the
`deepMerge` entry is missing or not a boolean, run
`self._values["deepMerge"] = False`. -/
def normDeepMergeStep (m : Entries) : Entries :=
  match dictGet m "deepMerge" with
  | some (.bool _) => m
  | _ => dictSet m "deepMerge" (.bool false)

/-- The default-setting tail of `Generate._get_values` (lines 232-242):
the `values` default followed by the `deepMerge` default.  When the
loaded value is not a mapping at all, the Python key tests / item
assignments raise `TypeError`. -/
def normalizeValues : Yaml → Except GenErr Yaml
  | .dict m => .ok (.dict (normDeepMergeStep (normValuesStep m)))
  | _ => .error .typeError

/-- `Generate._get_values` for a fresh invocation: when
`<env>-<zone>.yaml` does not exist the default
`{"deepMerge": False, "values": {}}` is stored and returned; otherwise
the file is read (its failure wrapped in "cannot read values file") and
normalised. -/
def getValues (fs : String → ReadResult) (env zone : String) :
    Except GenErr Yaml :=
  match fs (valFileName env zone) with
  | .missing => .ok (.dict [("deepMerge", .bool false), ("values", .dict [])])
  | .unreadable => .error .cannotReadFile
  | .content y => normalizeValues y

/-- `Generate._get_params` for a fresh invocation, applied to the parsed
content of `parameters.yaml` (lines 170-200):
1. when a `chart` mapping lacks a mapping-valued `values` entry, set
   `chart["values"] = {}` (a non-mapping `chart` makes the key test or
   the assignment raise `TypeError`);
2. when `labels` is missing or not a mapping, set it to `{}`;
3. "Convert all labels to string": iterate the `labels` items and for
   every non-string value run `self._params[k] = str(v)` — note the
   assignment targets the TOP-LEVEL params dict, exactly as the source
   does, not the labels mapping.
Non-mapping top-level content raises `TypeError` at the key tests. -/
def getParams (content : Yaml) : Except GenErr Yaml :=
  match content with
  | .dict m =>
    match (match dictGet m "chart" with
           | none => Except.ok m
           | some (.dict cm) =>
             match dictGet cm "values" with
             | some (.dict _) => Except.ok m
             | _ => Except.ok (dictSet m "chart" (.dict (dictSet cm "values" (.dict []))))
           | some _ => Except.error GenErr.typeError) with
    | .error e => .error e
    | .ok m1 =>
      let m2 := match dictGet m1 "labels" with
        | some (.dict _) => m1
        | _ => dictSet m1 "labels" (.dict [])
      let lbls := match dictGet m2 "labels" with
        | some (.dict lm) => lm
        | _ => []
      .ok (.dict (lbls.foldl
        (fun acc p => match p.2 with
          | .str _ => acc
          | v => dictSet acc p.1 (.str (pyStr v))) m2))
  | _ => .error .typeError

/-! ## Claim theorems: configuration resolution -/

theorem normValuesStep_values (m : Entries) :
    dictGet (normValuesStep m) "values"
      = some (match dictGet m "values" with
              | some (.dict d) => Yaml.dict d
              | _ => Yaml.dict []) := by
  unfold normValuesStep
  cases hv : dictGet m "values" with
  | none => simp [dictGet_dictSet_self]
  | some v => cases v <;> simp [hv, dictGet_dictSet_self]

theorem normValuesStep_other (m : Entries) (k : String) (h : ¬ k = "values") :
    dictGet (normValuesStep m) k = dictGet m k := by
  unfold normValuesStep
  split
  · rfl
  · exact dictGet_dictSet_ne m "values" k _ h

theorem normDeepMergeStep_deepMerge (m : Entries) :
    dictGet (normDeepMergeStep m) "deepMerge"
      = some (match dictGet m "deepMerge" with
              | some (.bool b) => Yaml.bool b
              | _ => Yaml.bool false) := by
  unfold normDeepMergeStep
  cases hv : dictGet m "deepMerge" with
  | none => simp [dictGet_dictSet_self]
  | some v => cases v <;> simp [hv, dictGet_dictSet_self]

theorem normDeepMergeStep_other (m : Entries) (k : String)
    (h : ¬ k = "deepMerge") :
    dictGet (normDeepMergeStep m) k = dictGet m k := by
  unfold normDeepMergeStep
  split
  · rfl
  · exact dictGet_dictSet_ne m "deepMerge" k _ h

/-- C8: whenever the values file `<env>-<zone>.yaml` for the requested
environment and zone does not exist, `Generate._get_values` succeeds and
returns exactly the default `{"deepMerge": False, "values": {}}`. -/
theorem getValues_missing_file_default (fs : String → ReadResult)
    (env zone : String) (h : fs (valFileName env zone) = .missing) :
    getValues fs env zone
      = .ok (.dict [("deepMerge", .bool false), ("values", .dict [])]) := by
  unfold getValues
  rw [h]

/-- C8 witness: a file system with no files at all. -/
theorem getValues_missing_file_default_witness :
    getValues (fun _ => .missing) "prod" "zone1"
      = .ok (.dict [("deepMerge", .bool false), ("values", .dict [])]) :=
  getValues_missing_file_default (fun _ => .missing) "prod" "zone1" rfl

/-- C9: `Generate._get_params` does NOT coerce label values to strings
inside the `labels` mapping.  For `parameters.yaml` content
`{labels: {a: 1}}` the loop `self._params[k] = str(v)` (note: not
`self._params["labels"][k]`) leaves `labels.a` bound to the integer `1`
and instead adds a stringified copy under the TOP-LEVEL key `a` — the
code contradicts its own comment "Convert all labels to string" and the
claim. -/
theorem getParams_labels_not_coerced :
    getParams (.dict [("labels", .dict [("a", .int 1)])])
      = .ok (.dict [("labels", .dict [("a", .int 1)]), ("a", .str "1")]) := by
  have h1 : pyStr (Yaml.int 1) = "1" := by
    simp only [pyStr, pyReprY]
    rfl
  have h2 : getParams (Yaml.dict [("labels", Yaml.dict [("a", Yaml.int 1)])])
      = Except.ok (Yaml.dict (dictSet [("labels", Yaml.dict [("a", Yaml.int 1)])]
          "a" (Yaml.str (pyStr (Yaml.int 1))))) := rfl
  rw [h2, h1]
  rfl

/-- C10: for every values file that exists and parses to a mapping,
`Generate._get_values`'s normalisation succeeds and establishes the
invariant: the result has a `values` key bound to a mapping (the
original one when it was a mapping, `{}` when missing or non-mapping)
and a `deepMerge` key bound to a boolean (the original one when it was
a boolean, `False` when missing or non-boolean). -/
theorem getValues_normalization_invariant (m : Entries) :
    ∃ m', normalizeValues (.dict m) = .ok (.dict m')
      ∧ dictGet m' "values" = some (match dictGet m "values" with
          | some (.dict d) => Yaml.dict d
          | _ => Yaml.dict [])
      ∧ dictGet m' "deepMerge" = some (match dictGet m "deepMerge" with
          | some (.bool b) => Yaml.bool b
          | _ => Yaml.bool false) := by
  refine ⟨normDeepMergeStep (normValuesStep m), rfl, ?_, ?_⟩
  · rw [normDeepMergeStep_other _ _ (by decide), normValuesStep_values]
  · rw [normDeepMergeStep_deepMerge, normValuesStep_other _ _ (by decide)]

/-! ## The Jinja2 `merge` filter (acm/acm.py lines 245-260)

```python
def _jinja2_filter_merge(self, dict1, dict2, deep=False):
    if not deep:
        dict1.update(dict2)
        return dict1
    if not isinstance(dict1, dict) or not isinstance(dict2, dict):
        return dict2
    for k in dict2:
        if k in dict1:
            dict1[k] = self._jinja2_filter_merge(dict1[k], dict2[k], deep=deep)
        else:
            dict1[k] = dict2[k]
    return dict1
```

The recursive calls always pass `deep=True`, so the recursion is the
deep-merge of two values (`mergeVal`); the filter itself dispatches on
`deep` (`mergeFilter`).  With `deep=False` on a non-dict `dict1` Python
raises (`dict.update` unavailable), modelled as `none`. -/

mutual

/-- One recursive call of the filter with `deep=True`: when both values
are dicts merge their entries, otherwise return the second value. -/
def mergeVal : Yaml → Yaml → Yaml
  | .dict m1, .dict m2 => .dict (mergeEntries m1 m2)
  | _, d2 => d2
termination_by _v1 v2 => sizeOf v2

/-- The `for k in dict2` loop: for each entry of `dict2` in order, item
assignment into `dict1` with the recursively merged value when the key is
present and the overlay value when it is not. -/
def mergeEntries : Entries → Entries → Entries
  | m1, [] => m1
  | m1, (k, v) :: rest =>
    mergeEntries (dictSet m1 k (match dictGet m1 k with
      | some v1 => mergeVal v1 v
      | none => v)) rest
termination_by _m1 m2 => sizeOf m2

end

/-- The filter `_jinja2_filter_merge(dict1, dict2, deep)` itself.  With
`deep=False` it runs `dict1.update(dict2)` and returns `dict1` (Python
raises when `dict1` is not a dict); with `deep=True` it is `mergeVal`. -/
def mergeFilter (d1 d2 : Yaml) (deep : Bool) : Option Yaml :=
  if !deep then
    match d1, d2 with
    | .dict m1, .dict m2 => some (.dict (dictUpdate m1 m2))
    | _, _ => none
  else some (mergeVal d1 d2)

mutual

/-- Well-formed YAML value: every dict in it has pairwise-distinct keys
(what parsed YAML mappings always satisfy).  The claims about the merge
quantify over well-formed mapping inputs. -/
def wfY : Yaml → Bool
  | .dict m => nodupKeys m && wfEntries m
  | _ => true
termination_by y => sizeOf y

/-- Well-formedness of the entries of a dict. -/
def wfEntries : Entries → Bool
  | [] => true
  | (_, v) :: rest => wfY v && wfEntries rest
termination_by m => sizeOf m

end

/-- Resolution of one base entry against the overlay `m2`: keep the entry
when its key is absent from the overlay, otherwise combine the two values
with `g`. -/
def resolveWith (g : Yaml → Yaml → Yaml) (m2 : Entries) (p : String × Yaml) :
    String × Yaml :=
  match dictGet m2 p.1 with
  | none => p
  | some v2 => (p.1, g p.2 v2)

/-- The sequential-mutation shape shared by `dict.update` (with
`g old new = new`) and the deep-merge loop (with `g = mergeVal`): fold
item assignment over the overlay entries. -/
def foldMergeG (g : Yaml → Yaml → Yaml) : Entries → Entries → Entries
  | m1, [] => m1
  | m1, (k, v) :: rest =>
    foldMergeG g (dictSet m1 k (match dictGet m1 k with
      | some v1 => g v1 v
      | none => v)) rest

/-- Reference shallow merge from the spec's words: a single-level key
union with overlay precedence — base entries keep their positions, their
values replaced by same-named overlay values, and overlay-only entries
are appended. -/
def shallowSpec (m1 m2 : Entries) : Entries :=
  m1.map (resolveWith (fun _ v2 => v2) m2)
    ++ m2.filter (fun p => !dictContains m1 p.1)

mutual

/-- Reference deep merge from the spec's words: for each overlay key that
also exists in base with both values mappings, merge recursively;
otherwise the overlay value replaces the base value wholesale; base-only
keys are preserved (in place) and overlay-only keys are added. -/
def mergeSpecVal : Yaml → Yaml → Yaml
  | .dict m1, .dict m2 =>
    .dict (mergeSpecBase m1 m2 ++ m2.filter (fun p => !dictContains m1 p.1))
  | _, d2 => d2
termination_by v1 _v2 => sizeOf v1

/-- The base entries of the reference deep merge, each resolved against
the overlay. -/
def mergeSpecBase : Entries → Entries → Entries
  | [], _ => []
  | (k, v) :: rest, m2 =>
    (match dictGet m2 k with
     | none => (k, v)
     | some v2 => (k, mergeSpecVal v v2)) :: mergeSpecBase rest m2
termination_by m1 _m2 => sizeOf m1

end

/-- The reference merge contract of spec §4.1, dispatching on the mode as
the filter does. -/
def mergeSpecFn (d1 d2 : Yaml) (deep : Bool) : Option Yaml :=
  if !deep then
    match d1, d2 with
    | .dict m1, .dict m2 => some (.dict (shallowSpec m1 m2))
    | _, _ => none
  else some (mergeSpecVal d1 d2)

/-- State-passing form of one `deep=True` call: the returned value,
the final state of the `dict1` argument and the final state of the
`dict2` argument.  In Python the loop mutates `dict1` in place and
returns it, so when both arguments are dicts the final state of `dict1`
IS the returned mapping; `dict2` is only read. -/
def mergeValSt (d1 d2 : Yaml) : Yaml × Yaml × Yaml :=
  match d1, d2 with
  | .dict m1, .dict m2 =>
    (.dict (mergeEntries m1 m2), .dict (mergeEntries m1 m2), .dict m2)
  | _, _ => (d2, d1, d2)

/-- State-passing form of the filter: `(returned value, final dict1,
final dict2)`.  With `deep=False`, `dict1.update(dict2)` mutates `dict1`
in place and the filter returns `dict1`. -/
def mergeFilterSt (d1 d2 : Yaml) (deep : Bool) : Option (Yaml × Yaml × Yaml) :=
  if !deep then
    match d1, d2 with
    | .dict m1, .dict m2 =>
      some (.dict (dictUpdate m1 m2), .dict (dictUpdate m1 m2), .dict m2)
    | _, _ => none
  else some (mergeValSt d1 d2)

/-! ## Association-list algebra for the merge proofs -/

section DictLemmas2

variable {κ : Type} {α : Type} [BEq κ] [LawfulBEq κ]

theorem beq_false_symm {a b : κ} (h : (a == b) = false) : (b == a) = false :=
  beq_eq_false_iff_ne.mpr (Ne.symm (beq_eq_false_iff_ne.mp h))

theorem dictContains_isSome (m : List (κ × α)) (k : κ) :
    dictContains m k = (dictGet m k).isSome := by
  induction m with
  | nil => rfl
  | cons p rest ih =>
    by_cases hp : p.1 == k
    · simp [dictContains, dictGet, List.any_cons, hp]
    · simp only [dictContains, List.any_cons, hp, Bool.false_or, dictGet,
        Bool.false_eq_true, if_false]
      exact ih

theorem key_beq_false_of_not_contains {m : List (κ × α)} {k : κ}
    (h : dictContains m k = false) {q : κ × α} (hq : q ∈ m) :
    (q.1 == k) = false :=
  Bool.eq_false_iff.mpr (List.any_eq_false.mp h q hq)

theorem dictContains_dictSet (m : List (κ × α)) (k k' : κ) (v : α) :
    dictContains (dictSet m k v) k' = (dictContains m k' || (k' == k)) := by
  unfold dictSet
  by_cases hc : dictContains m k
  · simp only [hc, if_true]
    unfold dictContains
    rw [List.any_map]
    have hcomp : ((fun p : κ × α => p.1 == k')
          ∘ (fun p : κ × α => if p.1 == k then (p.1, v) else p))
        = fun p : κ × α => p.1 == k' := by
      funext p
      by_cases hp : p.1 == k <;> simp [Function.comp, hp]
    rw [hcomp]
    by_cases hkk : k' == k
    · have hk : k' = k := eq_of_beq hkk
      subst hk
      unfold dictContains at hc
      simp [hc]
    · have hkk' : (k' == k) = false := Bool.eq_false_iff.mpr hkk
      simp [hkk']
  · simp only [hc, Bool.false_eq_true, if_false]
    unfold dictContains
    rw [List.any_append]
    by_cases hkk : k' == k
    · have hk : k' = k := eq_of_beq hkk
      subst hk
      simp [List.any_cons]
    · have hkk' : (k' == k) = false := Bool.eq_false_iff.mpr hkk
      simp [List.any_cons, hkk', beq_false_symm hkk']

theorem nodupKeys_map_fst {m : List (κ × α)} {f : κ × α → κ × α}
    (hf : ∀ p, (f p).1 = p.1) : nodupKeys (m.map f) = nodupKeys m := by
  induction m with
  | nil => rfl
  | cons p rest ih =>
    simp only [List.map_cons, nodupKeys]
    rw [hf p, ih]
    have : dictContains (rest.map f) p.1 = dictContains rest p.1 := by
      unfold dictContains
      rw [List.any_map]
      have hcomp : ((fun q : κ × α => q.1 == p.1) ∘ f)
          = fun q : κ × α => q.1 == p.1 := by
        funext q
        simp [Function.comp, hf q]
      rw [hcomp]
    rw [this]

theorem nodupKeys_append_single {m : List (κ × α)} {k : κ} {v : α}
    (h : nodupKeys m = true) (hc : dictContains m k = false) :
    nodupKeys (m ++ [(k, v)]) = true := by
  induction m with
  | nil => simp [nodupKeys, dictContains]
  | cons p rest ih =>
    simp only [nodupKeys, Bool.and_eq_true, Bool.not_eq_true'] at h
    simp only [dictContains, List.any_cons, Bool.or_eq_false_iff] at hc
    simp only [List.cons_append, nodupKeys, Bool.and_eq_true, Bool.not_eq_true']
    refine ⟨?_, ih h.2 hc.2⟩
    show (rest ++ [(k, v)]).any (fun q => q.1 == p.1) = false
    rw [List.any_append]
    apply Bool.or_eq_false_iff.mpr
    refine ⟨h.1, ?_⟩
    simp [beq_false_symm hc.1]

theorem nodupKeys_dictSet (m : List (κ × α)) (k : κ) (v : α)
    (h : nodupKeys m = true) : nodupKeys (dictSet m k v) = true := by
  unfold dictSet
  by_cases hc : dictContains m k
  · simp only [hc, if_true]
    rw [nodupKeys_map_fst (fun p => by by_cases hp : p.1 == k <;> simp [hp])]
    exact h
  · simp only [hc, Bool.false_eq_true, if_false]
    exact nodupKeys_append_single h (Bool.eq_false_iff.mpr hc)

theorem dictGet_of_mem_nodup {m : List (κ × α)} (h : nodupKeys m = true)
    {q : κ × α} (hq : q ∈ m) : dictGet m q.1 = some q.2 := by
  induction m with
  | nil => cases hq
  | cons p rest ih =>
    simp only [nodupKeys, Bool.and_eq_true, Bool.not_eq_true'] at h
    rcases List.mem_cons.mp hq with rfl | hq'
    · simp [dictGet]
    · have hne : (p.1 == q.1) = false :=
        beq_false_symm (key_beq_false_of_not_contains h.1 hq')
      simp only [dictGet, hne, Bool.false_eq_true, if_false]
      exact ih h.2 hq'

theorem dictGet_mem {m : List (κ × α)} {k : κ} {v : α}
    (h : dictGet m k = some v) : ∃ p, p ∈ m ∧ p.2 = v := by
  induction m with
  | nil => cases h
  | cons p rest ih =>
    by_cases hp : p.1 == k
    · simp only [dictGet, hp, if_true, Option.some_inj] at h
      exact ⟨p, List.mem_cons_self _ _, h⟩
    · simp only [dictGet, hp, Bool.false_eq_true, if_false] at h
      obtain ⟨q, hqm, hqv⟩ := ih h
      exact ⟨q, List.mem_cons_of_mem _ hqm, hqv⟩

end DictLemmas2

theorem sizeOf_snd_lt_of_mem {m : Entries} {p : String × Yaml} (h : p ∈ m) :
    sizeOf p.2 < sizeOf m := by
  have h1 := List.sizeOf_lt_of_mem h
  obtain ⟨a, b⟩ := p
  simp only [Prod.mk.sizeOf_spec] at h1
  simp only
  omega

theorem wfEntries_mem {m : Entries} (h : wfEntries m = true)
    {p : String × Yaml} (hp : p ∈ m) : wfY p.2 = true := by
  induction m with
  | nil => cases hp
  | cons q rest ih =>
    obtain ⟨k, v⟩ := q
    simp only [wfEntries, Bool.and_eq_true] at h
    rcases List.mem_cons.mp hp with rfl | hp'
    · exact h.1
    · exact ih h.2 hp'

theorem dictUpdate_eq_foldMergeG (m2 m1 : Entries) :
    dictUpdate m1 m2 = foldMergeG (fun _ v => v) m1 m2 := by
  induction m2 generalizing m1 with
  | nil => rfl
  | cons p rest ih =>
    obtain ⟨k, v⟩ := p
    have h1 : dictUpdate m1 ((k, v) :: rest) = dictUpdate (dictSet m1 k v) rest := rfl
    have h2 : (match dictGet m1 k with | some _ => v | none => v) = v := by
      cases dictGet m1 k <;> rfl
    rw [h1, ih, foldMergeG, h2]

theorem mergeEntries_eq_foldMergeG (m2 m1 : Entries) :
    mergeEntries m1 m2 = foldMergeG mergeVal m1 m2 := by
  induction m2 generalizing m1 with
  | nil => simp [mergeEntries, foldMergeG]
  | cons p rest ih =>
    obtain ⟨k, v⟩ := p
    rw [mergeEntries, foldMergeG]
    exact ih _

theorem mergeSpecBase_eq_map (m1 m2 : Entries) :
    mergeSpecBase m1 m2 = m1.map (resolveWith mergeSpecVal m2) := by
  induction m1 with
  | nil => simp [mergeSpecBase]
  | cons p rest ih =>
    obtain ⟨k, v⟩ := p
    simp only [mergeSpecBase, List.map_cons, ih]
    rfl

/-- Sequentially folding item assignment over the overlay (the shape of
both `dict.update` and the deep-merge loop, with `g` combining an
existing base value with the overlay value) equals, on dicts with
pairwise-distinct keys, the one-pass picture of the spec: base entries in
place resolved against the overlay, then overlay-only entries appended. -/
theorem foldMergeG_eq (g : Yaml → Yaml → Yaml) :
    ∀ (m2 m1 : Entries), nodupKeys m1 = true → nodupKeys m2 = true →
    foldMergeG g m1 m2
      = m1.map (resolveWith g m2)
        ++ m2.filter (fun p => !dictContains m1 p.1) := by
  intro m2
  induction m2 with
  | nil =>
    intro m1 _ _
    have hres : ∀ p ∈ m1, resolveWith g [] p = p := fun p _ => rfl
    rw [foldMergeG, List.map_congr_left hres, List.map_id', List.filter_nil,
      List.append_nil]
  | cons hd rest ih =>
    obtain ⟨k, v⟩ := hd
    intro m1 h1 h2
    simp only [nodupKeys, Bool.and_eq_true, Bool.not_eq_true'] at h2
    obtain ⟨hkr, hrest⟩ := h2
    rw [foldMergeG]
    rw [ih _ (nodupKeys_dictSet m1 k _ h1) hrest]
    have hfilter : rest.filter
          (fun p => !dictContains (dictSet m1 k (match dictGet m1 k with
            | some v1 => g v1 v
            | none => v)) p.1)
        = rest.filter (fun p => !dictContains m1 p.1) := by
      apply List.filter_congr
      intro p hp
      rw [dictContains_dictSet, key_beq_false_of_not_contains hkr hp,
        Bool.or_false]
    rw [hfilter]
    by_cases hc : dictContains m1 k
    · obtain ⟨v1, hv1⟩ := Option.isSome_iff_exists.mp
        ((dictContains_isSome m1 k) ▸ hc)
      have hw : (match dictGet m1 k with
          | some v1 => g v1 v
          | none => v) = g v1 v := by rw [hv1]
      have hset : dictSet m1 k (g v1 v)
          = m1.map (fun p => if p.1 == k then (p.1, g v1 v) else p) := by
        simp [dictSet, hc]
      have hmap : (dictSet m1 k (g v1 v)).map (resolveWith g rest)
          = m1.map (resolveWith g ((k, v) :: rest)) := by
        rw [hset, List.map_map]
        apply List.map_congr_left
        intro q hq
        simp only [Function.comp]
        by_cases hqk : q.1 == k
        · have hqk' : q.1 = k := eq_of_beq hqk
          have hq2 : q.2 = v1 := by
            have hg := dictGet_of_mem_nodup h1 hq
            rw [hqk', hv1] at hg
            exact (Option.some_inj.mp hg).symm
          have hgrest : dictGet rest k = none :=
            dictGet_eq_none_of_not_contains hkr
          simp only [hqk, if_true, resolveWith, dictGet, hqk', hgrest,
            beq_self_eq_true, if_true]
          rw [hq2]
        · have hqkf : (q.1 == k) = false := Bool.eq_false_iff.mpr hqk
          simp only [hqkf, Bool.false_eq_true, if_false, resolveWith, dictGet,
            beq_false_symm hqkf]
      have hheadfilter : ((k, v) :: rest).filter (fun p => !dictContains m1 p.1)
          = rest.filter (fun p => !dictContains m1 p.1) := by
        rw [List.filter_cons]
        simp [hc]
      rw [hw, hmap, hheadfilter]
    · have hcf : dictContains m1 k = false := Bool.eq_false_iff.mpr hc
      have hget : dictGet m1 k = none := dictGet_eq_none_of_not_contains hcf
      have hw : (match dictGet m1 k with
          | some v1 => g v1 v
          | none => v) = v := by rw [hget]
      have hset : dictSet m1 k v = m1 ++ [(k, v)] := by
        simp [dictSet, hc]
      have hres : resolveWith g rest (k, v) = (k, v) := by
        simp only [resolveWith, dictGet_eq_none_of_not_contains hkr]
      have hmap1 : m1.map (resolveWith g rest)
          = m1.map (resolveWith g ((k, v) :: rest)) := by
        apply List.map_congr_left
        intro q hq
        have hqkf : (q.1 == k) = false := key_beq_false_of_not_contains hcf hq
        simp only [resolveWith, dictGet, beq_false_symm hqkf,
          Bool.false_eq_true, if_false]
      have hheadfilter : ((k, v) :: rest).filter (fun p => !dictContains m1 p.1)
          = (k, v) :: rest.filter (fun p => !dictContains m1 p.1) := by
        rw [List.filter_cons]
        simp [hcf]
      rw [hw, hset, List.map_append, hmap1, hheadfilter]
      simp [hres, List.append_assoc]

/-- The deep-merge recursion of the filter coincides with the reference
deep merge on well-formed values, by strong induction on the size of the
overlay value. -/
theorem mergeVal_eq_specVal :
    ∀ v1 v2 : Yaml, wfY v1 = true → wfY v2 = true →
    mergeVal v1 v2 = mergeSpecVal v1 v2 := by
  suffices H : ∀ (n : Nat) (v1 v2 : Yaml), sizeOf v2 ≤ n →
      wfY v1 = true → wfY v2 = true → mergeVal v1 v2 = mergeSpecVal v1 v2 by
    exact fun v1 v2 h1 h2 => H (sizeOf v2) v1 v2 le_rfl h1 h2
  intro n
  induction n with
  | zero =>
    intro v1 v2 hsz _ _
    exact absurd hsz (by cases v2 <;> simp)
  | succ n ih =>
    intro v1 v2 hsz h1 h2
    cases v2 with
    | dict m2 =>
      cases v1 with
      | dict m1 =>
        simp only [wfY, Bool.and_eq_true] at h1 h2
        rw [show mergeVal (.dict m1) (.dict m2) = .dict (mergeEntries m1 m2)
            from by simp [mergeVal]]
        rw [show mergeSpecVal (.dict m1) (.dict m2)
              = .dict (mergeSpecBase m1 m2
                  ++ m2.filter (fun p => !dictContains m1 p.1))
            from by simp [mergeSpecVal]]
        congr 1
        rw [mergeEntries_eq_foldMergeG, foldMergeG_eq mergeVal m2 m1 h1.1 h2.1,
          mergeSpecBase_eq_map]
        congr 1
        apply List.map_congr_left
        intro q hq
        simp only [resolveWith]
        cases hg : dictGet m2 q.1 with
        | none => rfl
        | some v2' =>
          have hmem : ∃ p, p ∈ m2 ∧ p.2 = v2' := dictGet_mem hg
          obtain ⟨p, hpm, hpv⟩ := hmem
          have hlt : sizeOf v2' < sizeOf m2 := hpv ▸ sizeOf_snd_lt_of_mem hpm
          have hsz' : sizeOf v2' ≤ n := by
            have hdict : sizeOf m2 < sizeOf (Yaml.dict m2) := by simp
            omega
          show (q.1, mergeVal q.2 v2') = (q.1, mergeSpecVal q.2 v2')
          rw [ih q.2 v2' hsz' (wfEntries_mem h1.2 hq)
            (hpv ▸ wfEntries_mem h2.2 hpm)]
      | null => simp [mergeVal, mergeSpecVal]
      | bool b => simp [mergeVal, mergeSpecVal]
      | int i => simp [mergeVal, mergeSpecVal]
      | str s => simp [mergeVal, mergeSpecVal]
      | list l => simp [mergeVal, mergeSpecVal]
    | null => cases v1 <;> simp [mergeVal, mergeSpecVal]
    | bool b => cases v1 <;> simp [mergeVal, mergeSpecVal]
    | int i => cases v1 <;> simp [mergeVal, mergeSpecVal]
    | str s => cases v1 <;> simp [mergeVal, mergeSpecVal]
    | list l => cases v1 <;> simp [mergeVal, mergeSpecVal]

/-- C3: on every pair of well-formed mapping inputs and in both modes,
the value computed by `_jinja2_filter_merge` equals the reference
definition of spec §4.1: with `deep=false` a single-level key union with
overlay precedence (`shallowSpec`); with `deep=true` the recursive
reference merge (`mergeSpecVal`) in which both-mapping values merge
recursively and any other overlay value (the scalar-vs-mapping conflict
included) replaces the base value wholesale — and on mapping inputs the
operation is total (both sides are `some`). -/
theorem merge_equals_reference (m1 m2 : Entries) (deep : Bool)
    (h1 : wfY (.dict m1) = true) (h2 : wfY (.dict m2) = true) :
    mergeFilter (.dict m1) (.dict m2) deep
      = mergeSpecFn (.dict m1) (.dict m2) deep := by
  cases deep
  · show (some (Yaml.dict (dictUpdate m1 m2)) : Option Yaml)
        = some (Yaml.dict (shallowSpec m1 m2))
    simp only [wfY, Bool.and_eq_true] at h1 h2
    rw [dictUpdate_eq_foldMergeG, foldMergeG_eq _ m2 m1 h1.1 h2.1]
    rfl
  · show (some (mergeVal (Yaml.dict m1) (Yaml.dict m2)) : Option Yaml)
        = some (mergeSpecVal (Yaml.dict m1) (Yaml.dict m2))
    exact congrArg some (mergeVal_eq_specVal _ _ h1 h2)

/-- C3 witness: the theorem applied to the claim's own conflict example
`merge({a:{x:1}}, {a:5}, deep=true)`, whose hypotheses hold by
computation. -/
theorem merge_equals_reference_witness :
    wfY (.dict [("a", Yaml.dict [("x", Yaml.int 1)])]) = true
    ∧ wfY (.dict [("a", Yaml.int 5)]) = true
    ∧ mergeFilter (.dict [("a", Yaml.dict [("x", Yaml.int 1)])])
        (.dict [("a", Yaml.int 5)]) true
      = mergeSpecFn (.dict [("a", Yaml.dict [("x", Yaml.int 1)])])
        (.dict [("a", Yaml.int 5)]) true := by
  have hw1 : wfY (.dict [("a", Yaml.dict [("x", Yaml.int 1)])]) = true := by
    simp [wfY, wfEntries, nodupKeys, dictContains]
  have hw2 : wfY (.dict [("a", Yaml.int 5)]) = true := by
    simp [wfY, wfEntries, nodupKeys, dictContains]
  exact ⟨hw1, hw2, merge_equals_reference _ _ true hw1 hw2⟩

/-- C4 counterexample: in shallow mode with base `{}` and overlay
`{a: 1}`, the state-passing embedding of the filter shows the base
argument ends the call holding `{a: 1}` — `dict1.update(dict2)` mutates
the caller's base in place — so the claim that neither caller-supplied
structure is changed is false. -/
theorem merge_mutates_base_counterexample :
    mergeFilterSt (.dict []) (.dict [("a", Yaml.int 1)]) false
      = some (.dict [("a", Yaml.int 1)], .dict [("a", Yaml.int 1)],
          .dict [("a", Yaml.int 1)])
    ∧ Yaml.dict [("a", Yaml.int 1)] ≠ Yaml.dict [] := by
  refine ⟨rfl, ?_⟩
  intro h
  injection h with h'
  exact List.cons_ne_nil _ _ h'

/-- C4 (amended): on mapping inputs, in both modes, the filter never
mutates the overlay argument, but it mutates the base argument in place:
after the call the base structure is exactly the returned merge result
(the code chooses the in-place strategy). -/
theorem merge_inplace_base_becomes_result (m1 m2 : Entries) (deep : Bool) :
    ∃ r, mergeFilterSt (.dict m1) (.dict m2) deep = some (r, r, .dict m2) := by
  cases deep
  · exact ⟨.dict (dictUpdate m1 m2), rfl⟩
  · exact ⟨.dict (mergeEntries m1 m2), rfl⟩

end Acm
